import Mathlib

/-!
Shallow embedding of `src/stopwatch.py`: the timer/lap state machine and its
non-blocking render loop.  Clock readings are modelled as rationals (seconds),
the display as a sink receiving abstract frames.  Each branch of the Python
main loop (lines 109-137) is translated directly in `step`; the `finally`
block (lines 138-140) appears in `programFrames`.
-/

namespace Stopwatch

/-- Classification of a read byte, mirroring the sets `TRIG`, `CLEAR_LAST`,
`CLEAR_BEST`, `QUIT` (stopwatch.py lines 76-79); `other` is any byte in none
of the sets. -/
inductive Key where
  | trig
  | clearLast
  | clearBest
  | quit
  | other
deriving DecidableEq, Repr

/-- A frame pushed to the display sink.  `content cur last best` abstracts a
call `render(cur, last, best)` (lines 46-73); `blank` abstracts the cleared
frame pushed by the `finally` block (lines 139-140). -/
inductive Frame where
  | content (current : ℚ) (lastLap bestLap : Option ℚ)
  | blank
deriving DecidableEq, Repr

/-- The mutable loop state of stopwatch.py: `start` (line 99), `last_lap`
(line 100), `best_lap` (line 101), `last_draw` (line 102). -/
structure SWState where
  start : ℚ
  lastLap : Option ℚ
  bestLap : Option ℚ
  lastDraw : ℚ
deriving DecidableEq, Repr

/-- Initial state at process start: `start = time.monotonic()`, laps unset,
`last_draw = 0.0` (lines 99-102). -/
def initState (t0 : ℚ) : SWState :=
  { start := t0, lastLap := none, bestLap := none, lastDraw := 0 }

/-- One input to a loop iteration: `iter now key nowTrig` is an iteration
whose `time.monotonic()` read (line 110) returns `now`, whose `read_key`
(line 113) yields `key` (`none` = no byte available), and whose second
`time.monotonic()` read in the TRIG branch (line 122), if reached, returns
`nowTrig`.  `interrupt` is a SIGINT delivery: the handler (line 97) raises
`SystemExit`, leaving the loop at once. -/
inductive LoopEvent where
  | iter (now : ℚ) (key : Option Key) (nowTrig : ℚ)
  | interrupt
deriving DecidableEq, Repr

/-- One iteration of the `while True` body (lines 109-137): returns the new
state, the timestamped frames rendered during the iteration, and whether the
loop `break`s.  Unrecognized keys fall through to the throttled render, as in
the source (no branch matches, control reaches line 135). -/
def step (st : SWState) (now : ℚ) (key : Option Key) (nowTrig : ℚ) :
    SWState × List (ℚ × Frame) × Bool :=
  let elapsed := now - st.start
  match key with
  | some Key.quit => (st, [], true)
  | some Key.trig =>
      let lastLap := elapsed
      let bestLap :=
        match st.bestLap with
        | none => some lastLap
        | some b => if lastLap < b then some lastLap else some b
      ({ start := nowTrig, lastLap := some lastLap, bestLap := bestLap,
         lastDraw := st.lastDraw },
       [(now, Frame.content 0 (some lastLap) bestLap)], false)
  | some Key.clearLast =>
      ({ st with lastLap := none },
       [(now, Frame.content elapsed none st.bestLap)], false)
  | some Key.clearBest =>
      ({ st with bestLap := none },
       [(now, Frame.content elapsed st.lastLap none)], false)
  | _ =>
      if now - st.lastDraw ≥ 1/10 then
        ({ st with lastDraw := now },
         [(now, Frame.content elapsed st.lastLap st.bestLap)], false)
      else
        (st, [], false)

/-- Run the main loop over a finite trace of iteration inputs, collecting the
timestamped frames pushed inside the loop.  The loop stops at a `quit` key
(`break`, line 116), at a SIGINT, or when the trace is exhausted. -/
def runLoop (st : SWState) : List LoopEvent → SWState × List (ℚ × Frame)
  | [] => (st, [])
  | LoopEvent.interrupt :: _ => (st, [])
  | LoopEvent.iter now key nowTrig :: rest =>
      let r := step st now key nowTrig
      if r.2.2 then (r.1, r.2.1)
      else
        let r' := runLoop r.1 rest
        (r'.1, r.2.1 ++ r'.2)

/-- All frames the whole program pushes: the startup frame
`render(0.0, None, None)` (line 105), then the loop's frames, then the single
cleared frame from the `finally` block (lines 139-140). -/
def programFrames (t0 : ℚ) (evs : List LoopEvent) : List Frame :=
  Frame.content 0 none none ::
    ((runLoop (initState t0) evs).2.map Prod.snd ++ [Frame.blank])

/-- The lap durations recorded by the TRIG branch (`last_lap = elapsed`,
line 119) along a trace, in order. -/
def lapsOf (st : SWState) : List LoopEvent → List ℚ
  | [] => []
  | LoopEvent.interrupt :: _ => []
  | LoopEvent.iter now key nowTrig :: rest =>
      let r := step st now key nowTrig
      if r.2.2 then []
      else
        (match key with
         | some Key.trig => [now - st.start]
         | _ => []) ++ lapsOf r.1 rest

/-- `true` iff the event carries a Clear-best key. -/
def isClearBestEv : LoopEvent → Bool
  | LoopEvent.iter _ (some Key.clearBest) _ => true
  | _ => false

/-- `true` iff the event ends the loop: a Quit key or a SIGINT. -/
def isQuitEv : LoopEvent → Bool
  | LoopEvent.iter _ (some Key.quit) _ => true
  | LoopEvent.interrupt => true
  | _ => false

/-- `true` iff the event is a tick: an iteration with no byte read or an
unrecognized byte. -/
def isTickEv : LoopEvent → Bool
  | LoopEvent.iter _ none _ => true
  | LoopEvent.iter _ (some Key.other) _ => true
  | _ => false

/-- The best-lap update of the TRIG branch (lines 120-121), as a fold step:
`best_lap is None or d < best_lap` sets `best_lap = d`. -/
def optMin (a : Option ℚ) (d : ℚ) : Option ℚ :=
  match a with
  | none => some d
  | some b => if d < b then some d else some b

/-- Zero-pad a string on the left to width `w`, as Python's `0`-fill format
spec does for non-negative numbers. -/
def zfill (w : Nat) (s : String) : String :=
  if w ≤ s.length then s
  else String.mk (List.replicate (w - s.length) '0') ++ s

/-- Round to the nearest integer, ties to even: the rounding Python's fixed
point float formatting applies. -/
def roundHalfEven (q : ℚ) : ℤ :=
  let f := q.floor
  if q - f < 1/2 then f
  else if 1/2 < q - f then f + 1
  else if f % 2 = 0 then f else f + 1

/-- `fmt_time` (stopwatch.py lines 38-40):
`m, s = divmod(max(0.0, t), 60); return f"{int(m):02d}:{s:06.3f}"`.
Durations are rationals; `divmod` on non-negative arguments is floor
division with remainder, and `{s:06.3f}` prints `s` rounded to three decimal
digits, zero-filled to total width 6. -/
def fmt_time (t : ℚ) : String :=
  let tc := max 0 t
  let m : ℤ := (tc / 60).floor
  let s : ℚ := tc - 60 * m
  let ms : ℕ := (roundHalfEven (s * 1000)).toNat
  zfill 2 (Nat.repr m.toNat) ++ ":" ++
    zfill 6 (Nat.repr (ms / 1000) ++ "." ++ zfill 3 (Nat.repr (ms % 1000)))

/-- How `render` displays an optional lap (lines 51 and 61):
`"--" if v is None else fmt_time(v)`. -/
def lapText : Option ℚ → String
  | none => "--"
  | some v => fmt_time v

/-- The invariant of claim C7: whenever both laps are set, best is at most
last. -/
def BestLeLast (st : SWState) : Prop :=
  ∀ b l, st.bestLap = some b → st.lastLap = some l → b ≤ l

lemma runLoop_cons_iter (st : SWState) (now : ℚ) (key : Option Key)
    (nowTrig : ℚ) (rest : List LoopEvent) :
    runLoop st (LoopEvent.iter now key nowTrig :: rest) =
      if (step st now key nowTrig).2.2 then
        ((step st now key nowTrig).1, (step st now key nowTrig).2.1)
      else ((runLoop (step st now key nowTrig).1 rest).1,
            (step st now key nowTrig).2.1 ++
              (runLoop (step st now key nowTrig).1 rest).2) := rfl

lemma lapsOf_cons_iter (st : SWState) (now : ℚ) (key : Option Key)
    (nowTrig : ℚ) (rest : List LoopEvent) :
    lapsOf st (LoopEvent.iter now key nowTrig :: rest) =
      if (step st now key nowTrig).2.2 then []
      else
        (match key with
         | some Key.trig => [now - st.start]
         | _ => []) ++ lapsOf (step st now key nowTrig).1 rest := rfl

lemma step_brk (st : SWState) (now : ℚ) (key : Option Key) (nowTrig : ℚ) :
    (step st now key nowTrig).2.2 = decide (key = some Key.quit) := by
  cases key with
  | none => simp only [step]; split <;> simp
  | some k => cases k <;> (simp only [step]; try split) <;> simp

/-- C2: a Lap-trigger event sets `last_lap` to the current elapsed value,
sets `best_lap` to it when `best_lap` is unset or the new lap is smaller
(leaving `best_lap` unchanged otherwise), resets the start reference so that
elapsed immediately afterwards is 0, and renders a frame showing elapsed 0
with the updated laps. -/
theorem trig_records_updates_resets (st : SWState) (now nowTrig : ℚ) :
    (step st now (some Key.trig) nowTrig).1.lastLap = some (now - st.start) ∧
    (st.bestLap = none →
      (step st now (some Key.trig) nowTrig).1.bestLap =
        some (now - st.start)) ∧
    (∀ b, st.bestLap = some b → now - st.start < b →
      (step st now (some Key.trig) nowTrig).1.bestLap =
        some (now - st.start)) ∧
    (∀ b, st.bestLap = some b → ¬now - st.start < b →
      (step st now (some Key.trig) nowTrig).1.bestLap = st.bestLap) ∧
    nowTrig - (step st now (some Key.trig) nowTrig).1.start = 0 ∧
    (step st now (some Key.trig) nowTrig).2.1 =
      [(now, Frame.content 0 ((step st now (some Key.trig) nowTrig).1.lastLap)
          ((step st now (some Key.trig) nowTrig).1.bestLap))] := by
  refine ⟨?_, ?_, ?_, ?_, ?_, ?_⟩
  · simp [step]
  · intro h; simp [step, h]
  · intro b hb hlt; simp [step, hb, if_pos hlt]
  · intro b hb hge; simp [step, hb, if_neg hge]
  · simp [step]
  · cases hb : st.bestLap <;> simp [step, hb]

/-- C2 witness at a concrete state. -/
theorem trig_records_updates_resets_witness :
    (step (initState 0) 3 (some Key.trig) 3).1.lastLap = some (3 - (initState 0).start) ∧
    (step (initState 0) 3 (some Key.trig) 3).1.bestLap = some (3 - (initState 0).start) ∧
    3 - (step (initState 0) 3 (some Key.trig) 3).1.start = 0 := by
  refine ⟨(trig_records_updates_resets (initState 0) 3 3).1,
    (trig_records_updates_resets (initState 0) 3 3).2.1 rfl,
    (trig_records_updates_resets (initState 0) 3 3).2.2.2.2.1⟩

/-- C8: a Clear-last event unsets `last_lap` (displayed as the `"--"`
placeholder) and leaves `best_lap`, the start reference and the throttle
timestamp unchanged; it renders immediately with the current elapsed value. -/
theorem clearLast_effect (st : SWState) (now nowTrig : ℚ) :
    (step st now (some Key.clearLast) nowTrig).1.lastLap = none ∧
    lapText (step st now (some Key.clearLast) nowTrig).1.lastLap = "--" ∧
    (step st now (some Key.clearLast) nowTrig).1.bestLap = st.bestLap ∧
    (step st now (some Key.clearLast) nowTrig).1.start = st.start ∧
    (step st now (some Key.clearLast) nowTrig).2.1 =
      [(now, Frame.content (now - st.start) none st.bestLap)] ∧
    (step st now (some Key.clearLast) nowTrig).2.2 = false := by
  refine ⟨?_, ?_, ?_, ?_, ?_, ?_⟩ <;> simp [step, lapText]

/-- C9: a Clear-best event unsets `best_lap` (displayed as the `"--"`
placeholder) and leaves `last_lap`, the start reference and the throttle
timestamp unchanged; it renders immediately with the current elapsed value. -/
theorem clearBest_effect (st : SWState) (now nowTrig : ℚ) :
    (step st now (some Key.clearBest) nowTrig).1.bestLap = none ∧
    lapText (step st now (some Key.clearBest) nowTrig).1.bestLap = "--" ∧
    (step st now (some Key.clearBest) nowTrig).1.lastLap = st.lastLap ∧
    (step st now (some Key.clearBest) nowTrig).1.start = st.start ∧
    (step st now (some Key.clearBest) nowTrig).2.1 =
      [(now, Frame.content (now - st.start) st.lastLap none)] ∧
    (step st now (some Key.clearBest) nowTrig).2.2 = false := by
  refine ⟨?_, ?_, ?_, ?_, ?_, ?_⟩ <;> simp [step, lapText]

lemma step_none_fields (st : SWState) (now nowTrig : ℚ) :
    (step st now none nowTrig).1.bestLap = st.bestLap ∧
    (step st now none nowTrig).1.lastLap = st.lastLap ∧
    (step st now none nowTrig).1.start = st.start := by
  refine ⟨?_, ?_, ?_⟩ <;> (simp only [step]; split <;> rfl)

lemma step_other_fields (st : SWState) (now nowTrig : ℚ) :
    (step st now (some Key.other) nowTrig).1.bestLap = st.bestLap ∧
    (step st now (some Key.other) nowTrig).1.lastLap = st.lastLap ∧
    (step st now (some Key.other) nowTrig).1.start = st.start := by
  refine ⟨?_, ?_, ?_⟩ <;> (simp only [step]; split <;> rfl)

lemma bestLeLast_step (st : SWState) (now nowTrig : ℚ) (key : Option Key)
    (h : BestLeLast st) : BestLeLast (step st now key nowTrig).1 := by
  intro b l hb hl
  cases key with
  | none =>
      rw [(step_none_fields st now nowTrig).1] at hb
      rw [(step_none_fields st now nowTrig).2.1] at hl
      exact h b l hb hl
  | some k =>
      cases k with
      | trig =>
          simp only [step] at hb hl
          simp at hb hl
          cases hb0 : st.bestLap with
          | none => rw [hb0] at hb; simp_all
          | some b0 =>
              rw [hb0] at hb
              simp at hb
              split at hb <;> simp_all
      | clearLast => simp [step] at hl
      | clearBest => simp [step] at hb
      | quit => exact h b l hb hl
      | other =>
          rw [(step_other_fields st now nowTrig).1] at hb
          rw [(step_other_fields st now nowTrig).2.1] at hl
          exact h b l hb hl

lemma bestLeLast_runLoop (st : SWState) (evs : List LoopEvent)
    (h : BestLeLast st) : BestLeLast (runLoop st evs).1 := by
  induction evs generalizing st with
  | nil => exact h
  | cons e rest ih =>
      cases e with
      | interrupt => exact h
      | iter now key nowTrig =>
          rw [runLoop_cons_iter]
          split
          · exact bestLeLast_step st now nowTrig key h
          · exact ih _ (bestLeLast_step st now nowTrig key h)

/-- C7: in every state reachable from the initial state, `best_lap ≤
last_lap` whenever both are set; across any single transition, `best_lap`
either stays the same, goes from unset to set, strictly decreases, or is
unset by a Clear-best key — it never increases, and it only becomes unset
through a Clear-best key. -/
theorem best_lap_invariant :
    (∀ (t0 : ℚ) (evs : List LoopEvent),
        BestLeLast (runLoop (initState t0) evs).1) ∧
    (∀ (st : SWState) (now nowTrig : ℚ) (key : Option Key),
        ((step st now key nowTrig).1.bestLap = st.bestLap ∨
          (st.bestLap = none ∧
            ∃ d, (step st now key nowTrig).1.bestLap = some d) ∨
          (∃ b d, st.bestLap = some b ∧
            (step st now key nowTrig).1.bestLap = some d ∧ d < b) ∨
          ((step st now key nowTrig).1.bestLap = none ∧
            key = some Key.clearBest)) ∧
        ((step st now key nowTrig).1.bestLap = none →
          st.bestLap = none ∨ key = some Key.clearBest)) := by
  constructor
  · intro t0 evs
    refine bestLeLast_runLoop _ _ ?_
    intro b l hb
    simp [initState] at hb
  · intro st now nowTrig key
    constructor
    · cases key with
      | none =>
          left; simp only [step]; split <;> rfl
      | some k =>
          cases k with
          | trig =>
              cases hb0 : st.bestLap with
              | none =>
                  right; left
                  exact ⟨rfl, now - st.start, by simp [step, hb0]⟩
              | some b0 =>
                  by_cases hlt : now - st.start < b0
                  · right; right; left
                    exact ⟨b0, now - st.start, rfl, by simp [step, hb0, if_pos hlt], hlt⟩
                  · left; simp [step, hb0, if_neg hlt]
          | clearLast => left; simp [step]
          | clearBest =>
              right; right; right
              exact ⟨by simp [step], rfl⟩
          | quit => left; simp [step]
          | other => left; simp only [step]; split <;> rfl
    · intro hnone
      cases key with
      | none =>
          left; simp only [step] at hnone; split at hnone <;> simpa using hnone
      | some k =>
          cases k with
          | trig =>
              exfalso
              cases hb0 : st.bestLap <;> simp [step, hb0] at hnone
              split at hnone <;> simp at hnone
          | clearLast => left; simpa [step] using hnone
          | clearBest => right; rfl
          | quit => left; simpa [step] using hnone
          | other =>
              left; simp only [step] at hnone; split at hnone <;> simpa using hnone

/-- C7 witness at a concrete reachable state with both laps set. -/
theorem best_lap_invariant_witness :
    (runLoop (initState 0) [LoopEvent.iter 2 (some Key.trig) 2]).1.bestLap =
        some 2 →
    (runLoop (initState 0) [LoopEvent.iter 2 (some Key.trig) 2]).1.lastLap =
        some 2 →
    (2 : ℚ) ≤ 2 := by
  intro hb hl
  exact best_lap_invariant.1 0 [LoopEvent.iter 2 (some Key.trig) 2] 2 2
    (by simpa using hb) (by simpa using hl)

/-- C10: a render forced by a state-changing key leaves `last_draw`
untouched, so a tick render can follow it after less than one frame
interval: in the concrete run below, a lap key renders at 0.2 s and the next
iteration at 0.21 s renders again, 0.01 s later. -/
theorem forced_render_skips_throttle :
    (∀ (st : SWState) (now nowTrig : ℚ) (k : Key),
        k = Key.trig ∨ k = Key.clearLast ∨ k = Key.clearBest →
        (step st now (some k) nowTrig).1.lastDraw = st.lastDraw) ∧
    ((runLoop (initState 0) [LoopEvent.iter (2/10) (some Key.trig) (2/10),
          LoopEvent.iter (21/100) none 0]).2.map Prod.fst =
        [2/10, 21/100] ∧
      (21/100 : ℚ) - 2/10 < 1/10) := by
  refine ⟨?_, ?_, ?_⟩
  · rintro st now nowTrig k (rfl | rfl | rfl) <;> simp [step]
  · with_unfolding_all rfl
  · norm_num

/-- C10 witness: the throttle-timestamp part applied at a concrete state. -/
theorem forced_render_skips_throttle_witness :
    (step (initState 0) 1 (some Key.trig) 1).1.lastDraw =
      (initState 0).lastDraw :=
  forced_render_skips_throttle.1 (initState 0) 1 1 Key.trig (Or.inl rfl)

lemma step_trig_bestLap (st : SWState) (now nowTrig : ℚ) :
    (step st now (some Key.trig) nowTrig).1.bestLap =
      optMin st.bestLap (now - st.start) := by
  cases hb : st.bestLap <;> simp [step, optMin, hb]

lemma bestLap_foldl (st : SWState) (evs : List LoopEvent)
    (hcb : ∀ e ∈ evs, isClearBestEv e = false) :
    (runLoop st evs).1.bestLap = (lapsOf st evs).foldl optMin st.bestLap := by
  induction evs generalizing st with
  | nil => rfl
  | cons e rest ih =>
      have hrest : ∀ e ∈ rest, isClearBestEv e = false :=
        fun x hx => hcb x (List.mem_cons_of_mem _ hx)
      cases e with
      | interrupt => rfl
      | iter now key nowTrig =>
          rw [runLoop_cons_iter, lapsOf_cons_iter, step_brk]
          cases key with
          | none =>
              simp only [decide_eq_true_eq, reduceCtorEq, if_false,
                List.nil_append]
              rw [ih _ hrest, (step_none_fields st now nowTrig).1]
          | some k =>
              cases k with
              | trig =>
                  simp only [decide_eq_true_eq, Option.some.injEq,
                    reduceCtorEq, if_false, List.cons_append, List.nil_append,
                    List.foldl_cons]
                  rw [ih _ hrest, step_trig_bestLap]
              | clearLast =>
                  simp only [decide_eq_true_eq, Option.some.injEq,
                    reduceCtorEq, if_false, List.nil_append]
                  rw [ih _ hrest]
                  simp [step]
              | clearBest =>
                  exact absurd (hcb _ (List.mem_cons_self _ _)) (by
                    simp [isClearBestEv])
              | quit => simp [step]
              | other =>
                  simp only [decide_eq_true_eq, Option.some.injEq,
                    reduceCtorEq, if_false, List.nil_append]
                  rw [ih _ hrest, (step_other_fields st now nowTrig).1]

lemma foldl_optMin_some (l : List ℚ) (b : ℚ) :
    l.foldl optMin (some b) = some (l.foldl min b) := by
  induction l generalizing b with
  | nil => rfl
  | cons d t ih =>
      have h : optMin (some b) d = some (min b d) := by
        by_cases hd : d < b
        · simp [optMin, hd, min_eq_right (le_of_lt hd)]
        · simp [optMin, hd, min_eq_left (le_of_not_lt hd)]
      simp only [List.foldl_cons, h, ih]

/-- C1: starting from an unset `best_lap`, running any trace that contains
no Clear-best key leaves `best_lap` equal to the minimum of the lap
durations the Lap-trigger events produced along it (and unset when no lap
was triggered). -/
theorem best_is_min_of_laps (st : SWState) (evs : List LoopEvent)
    (hb : st.bestLap = none)
    (hcb : ∀ e ∈ evs, isClearBestEv e = false) :
    (runLoop st evs).1.bestLap = (lapsOf st evs).min? := by
  rw [bestLap_foldl st evs hcb, hb]
  cases h : lapsOf st evs with
  | nil => rfl
  | cons d t =>
      show (d :: t).foldl optMin none = _
      rw [show (d :: t).foldl optMin none = t.foldl optMin (some d) from rfl,
        foldl_optMin_some]
      rfl

/-- C1 witness: two laps of 3 s and 1 s from the initial state give
`best_lap = min(3, 1) = 1`. -/
theorem best_is_min_of_laps_witness :
    (runLoop (initState 0)
        [LoopEvent.iter 3 (some Key.trig) 3,
         LoopEvent.iter 4 (some Key.trig) 4]).1.bestLap =
      (lapsOf (initState 0)
        [LoopEvent.iter 3 (some Key.trig) 3,
         LoopEvent.iter 4 (some Key.trig) 4]).min? ∧
    (lapsOf (initState 0)
        [LoopEvent.iter 3 (some Key.trig) 3,
         LoopEvent.iter 4 (some Key.trig) 4]).min? = some 1 := by
  constructor
  · exact best_is_min_of_laps (initState 0) _ rfl (by decide)
  · with_unfolding_all rfl

lemma step_tick_eq (st : SWState) (now nowTrig : ℚ) (key : Option Key)
    (hk : isTickEv (LoopEvent.iter now key nowTrig) = true) :
    step st now key nowTrig =
      if now - st.lastDraw ≥ 1/10 then
        ({ st with lastDraw := now },
         [(now, Frame.content (now - st.start) st.lastLap st.bestLap)], false)
      else (st, [], false) := by
  cases key with
  | none => rfl
  | some k => cases k <;> first | rfl | simp [isTickEv] at hk

lemma tick_chain (st : SWState) (evs : List LoopEvent)
    (ht : ∀ e ∈ evs, isTickEv e = true) :
    List.Chain' (fun a b => a + 1/10 ≤ b)
      (st.lastDraw :: (runLoop st evs).2.map Prod.fst) := by
  induction evs generalizing st with
  | nil => simp [runLoop]
  | cons e rest ih =>
      have hrest : ∀ x ∈ rest, isTickEv x = true :=
        fun x hx => ht x (List.mem_cons_of_mem _ hx)
      cases e with
      | interrupt => exact absurd (ht _ (List.mem_cons_self _ _)) (by
          simp [isTickEv])
      | iter now key nowTrig =>
          have hk := ht _ (List.mem_cons_self _ _)
          rw [runLoop_cons_iter, step_tick_eq st now nowTrig key hk]
          by_cases hc : now - st.lastDraw ≥ 1/10
          · rw [if_pos hc]
            simp only [List.map_cons, List.map_append]
            refine List.chain'_cons.mpr ⟨by linarith, ?_⟩
            have h2 := ih { st with lastDraw := now } hrest
            simpa using h2
          · rw [if_neg hc]
            simpa using ih st hrest

lemma countP_le_one_of_pairwise {α : Type} (P : α → Bool) (R : α → α → Prop)
    (hPR : ∀ x y, R x y → P x = true → P y = true → False) :
    ∀ l : List α, l.Pairwise R → l.countP P ≤ 1 := by
  intro l hl
  induction hl with
  | nil => simp
  | @cons x t hx _ ih =>
      rw [List.countP_cons]
      by_cases hp : P x = true
      · have h0 : t.countP P = 0 := List.countP_eq_zero.mpr
          (fun y hy hPy => hPR x y (hx y hy) hp hPy)
        simp [h0, hp]
      · simp [hp]
        exact ih

/-- C5: over any trace of tick iterations (no recognized key), at most one
render falls inside any 100 ms window; a state-changing key renders exactly
one frame in its own iteration, whatever the time since the last render. -/
theorem render_throttle :
    (∀ (st : SWState) (evs : List LoopEvent),
        (∀ e ∈ evs, isTickEv e = true) →
        ∀ a : ℚ,
          ((runLoop st evs).2.map Prod.fst).countP
              (fun x => decide (a ≤ x ∧ x < a + 1/10)) ≤ 1) ∧
    (∀ (st : SWState) (now nowTrig : ℚ) (k : Key),
        k = Key.trig ∨ k = Key.clearLast ∨ k = Key.clearBest →
        ∃ fr, (step st now (some k) nowTrig).2.1 = [(now, fr)]) := by
  constructor
  · intro st evs ht a
    have hch := tick_chain st evs ht
    have htr : Transitive (fun a b : ℚ => a + 1/10 ≤ b) :=
      fun x y z hxy hyz => by linarith
    have : IsTrans ℚ (fun a b : ℚ => a + 1/10 ≤ b) := ⟨htr⟩
    have hpw := (List.chain'_iff_pairwise.mp hch).of_cons
    refine countP_le_one_of_pairwise _ _ ?_ _ hpw
    intro x y hxy hPx hPy
    simp only [decide_eq_true_eq] at hPx hPy
    linarith [hPx.1, hPx.2, hPy.1, hPy.2]
  · rintro st now nowTrig k (rfl | rfl | rfl)
    · refine ⟨Frame.content 0 (some (now - st.start))
        ((step st now (some Key.trig) nowTrig).1.bestLap), ?_⟩
      cases hb : st.bestLap <;> simp [step, hb]
    · exact ⟨Frame.content (now - st.start) none st.bestLap, by simp [step]⟩
    · exact ⟨Frame.content (now - st.start) st.lastLap none, by simp [step]⟩

/-- C5 witness: the throttle bound on a one-tick trace and the forced render
of a lap key, at concrete inputs. -/
theorem render_throttle_witness :
    ((runLoop (initState 0) [LoopEvent.iter (2/10) none 0]).2.map
        Prod.fst).countP
        (fun x => decide ((0 : ℚ) ≤ x ∧ x < 0 + 1/10)) ≤ 1 ∧
    ∃ fr, (step (initState 0) 7 (some Key.clearLast) 0).2.1 = [(7, fr)] :=
  ⟨render_throttle.1 (initState 0) _ (by decide) 0,
   render_throttle.2 (initState 0) 7 0 Key.clearLast (Or.inr (Or.inl rfl))⟩

lemma step_frames_content (st : SWState) (now nowTrig : ℚ) (key : Option Key) :
    ∀ p ∈ (step st now key nowTrig).2.1, ∃ c l b,
      p.2 = Frame.content c l b := by
  cases key with
  | none => simp only [step]; split <;> simp
  | some k => cases k <;> (simp only [step]; try split) <;> simp

lemma runLoop_frames_content (st : SWState) (evs : List LoopEvent) :
    ∀ p ∈ (runLoop st evs).2, ∃ c l b, p.2 = Frame.content c l b := by
  induction evs generalizing st with
  | nil => simp [runLoop]
  | cons e rest ih =>
      cases e with
      | interrupt => simp [runLoop]
      | iter now key nowTrig =>
          rw [runLoop_cons_iter]
          split
          · exact step_frames_content st now nowTrig key
          · intro p hp
            rcases List.mem_append.mp hp with h | h
            · exact step_frames_content st now nowTrig key p h
            · exact ih _ p h

lemma runLoop_quit_cut (st : SWState) (pre : List LoopEvent) (e : LoopEvent)
    (post : List LoopEvent) (he : isQuitEv e = true) :
    runLoop st (pre ++ e :: post) = runLoop st (pre ++ [e]) := by
  induction pre generalizing st with
  | nil =>
      cases e with
      | interrupt => rfl
      | iter now key nowTrig =>
          have hkey : key = some Key.quit := by
            cases key with
            | none => simp [isQuitEv] at he
            | some k => cases k <;> simp [isQuitEv] at he ⊢
          subst hkey
          simp only [List.nil_append, runLoop_cons_iter, step_brk]
          simp
  | cons e' pre' ih =>
      cases e' with
      | interrupt => rfl
      | iter now key nowTrig =>
          simp only [List.cons_append, runLoop_cons_iter]
          split
          · rfl
          · rw [ih]

/-- C6: every program run pushes the cleared frame exactly once, as its very
last frame; and once a Quit key or an interrupt is reached, the remaining
trace contributes nothing — the frames are those of the trace truncated at
the Quit event, followed by the single blank frame. -/
theorem quit_single_blank_frame (t0 : ℚ) (evs : List LoopEvent) :
    (programFrames t0 evs).getLast? = some Frame.blank ∧
    (programFrames t0 evs).count Frame.blank = 1 ∧
    (∀ (pre : List LoopEvent) (e : LoopEvent) (post : List LoopEvent),
        isQuitEv e = true →
        programFrames t0 (pre ++ e :: post) = programFrames t0 (pre ++ [e])) := by
  refine ⟨?_, ?_, ?_⟩
  · show (Frame.content 0 none none ::
      ((runLoop (initState t0) evs).2.map Prod.snd ++ [Frame.blank])).getLast? =
        some Frame.blank
    rw [← List.cons_append]
    exact List.getLast?_concat _
  · show (Frame.content 0 none none ::
      ((runLoop (initState t0) evs).2.map Prod.snd ++ [Frame.blank])).count
        Frame.blank = 1
    rw [← List.cons_append, List.count_append]
    have h0 : (Frame.content 0 none none ::
        (runLoop (initState t0) evs).2.map Prod.snd).count Frame.blank = 0 := by
      refine List.count_eq_zero.mpr ?_
      intro hmem
      rcases List.mem_cons.mp hmem with h | h
      · exact Frame.noConfusion h
      · rcases List.mem_map.mp h with ⟨p, hp, hpe⟩
        rcases runLoop_frames_content (initState t0) evs p hp with ⟨c, l, b, hc⟩
        rw [hc] at hpe
        exact Frame.noConfusion hpe
    rw [h0]
    rfl
  · intro pre e post he
    unfold programFrames
    rw [runLoop_quit_cut _ _ _ _ he]

/-- C6 witness: a quit key after one lap, with a tail that is ignored. -/
theorem quit_single_blank_frame_witness :
    programFrames 0 ([LoopEvent.iter 1 (some Key.trig) 1] ++
        LoopEvent.iter 2 (some Key.quit) 2 ::
          [LoopEvent.iter 3 (some Key.trig) 3]) =
      programFrames 0 ([LoopEvent.iter 1 (some Key.trig) 1] ++
        [LoopEvent.iter 2 (some Key.quit) 2]) :=
  (quit_single_blank_frame 0 []).2.2 [LoopEvent.iter 1 (some Key.trig) 1]
    (LoopEvent.iter 2 (some Key.quit) 2)
    [LoopEvent.iter 3 (some Key.trig) 3] rfl

lemma string_mk_length (l : List Char) : (String.mk l).length = l.length := rfl

lemma zfill_length (w : Nat) (s : String) :
    (zfill w s).length = max w s.length := by
  unfold zfill
  split
  · next h => exact (max_eq_right h).symm
  · next h =>
      rw [String.length_append, string_mk_length, List.length_replicate]
      omega

lemma zfill_append (k : Nat) (a b : String) :
    zfill (k + b.length) (a ++ b) = zfill k a ++ b := by
  unfold zfill
  rw [String.length_append]
  by_cases h : k ≤ a.length
  · rw [if_pos (by omega), if_pos h]
  · rw [if_neg (by omega), if_neg h,
      show k + b.length - (a.length + b.length) = k - a.length by omega,
      String.append_assoc]

lemma repr_length_le_two : ∀ n : ℕ, n < 100 → (Nat.repr n).length ≤ 2 := by
  decide

set_option maxRecDepth 4000 in
lemma repr_length_le_three : ∀ n : ℕ, n < 1000 → (Nat.repr n).length ≤ 3 := by
  decide

lemma rat_floor_eq_floor (q : ℚ) : q.floor = ⌊q⌋ :=
  (Rat.floor_def' q).trans Rat.floor_def.symm

lemma roundHalfEven_bounds (q : ℚ) :
    ⌊q⌋ ≤ roundHalfEven q ∧ roundHalfEven q ≤ ⌊q⌋ + 1 := by
  simp only [roundHalfEven, rat_floor_eq_floor]
  split_ifs <;> omega

lemma fmt_time_shape (t : ℚ) (_h : 0 ≤ t) :
    ∃ mm ss mil : ℕ, ss ≤ 60 ∧ mil < 1000 ∧
      fmt_time t =
        zfill 2 (Nat.repr mm) ++ ":" ++ zfill 2 (Nat.repr ss) ++ "." ++
          zfill 3 (Nat.repr mil) ∧
      (zfill 2 (Nat.repr ss)).length = 2 ∧
      (zfill 3 (Nat.repr mil)).length = 3 ∧
      2 ≤ (zfill 2 (Nat.repr mm)).length := by
  set m : ℤ := ((max 0 t) / 60).floor with hm
  set s : ℚ := max 0 t - 60 * m with hs
  set ms : ℕ := (roundHalfEven (s * 1000)).toNat with hms
  have h60 : (0:ℚ) < 60 := by norm_num
  have hfl : ((max 0 t) / 60).floor = ⌊(max 0 t) / 60⌋ := rat_floor_eq_floor _
  have hfloor_le : (⌊max 0 t / 60⌋ : ℚ) * 60 ≤ max 0 t :=
    (le_div_iff₀ h60).mp (Int.floor_le _)
  have hlt : max 0 t < ((⌊max 0 t / 60⌋ : ℚ) + 1) * 60 :=
    (div_lt_iff₀ h60).mp (Int.lt_floor_add_one _)
  have hs0 : 0 ≤ s := by rw [hs, hm, hfl]; linarith
  have hs60 : s < 60 := by rw [hs, hm, hfl]; linarith
  have hmsZ := roundHalfEven_bounds (s * 1000)
  have h1 : (0:ℤ) ≤ roundHalfEven (s * 1000) :=
    le_trans (Int.floor_nonneg.mpr (by positivity)) hmsZ.1
  have h2 : roundHalfEven (s * 1000) ≤ 60000 := by
    have hq : s * 1000 < 60000 := by linarith
    have hq2 : ⌊s * 1000⌋ < 60000 := Int.floor_lt.mpr (by exact_mod_cast hq)
    omega
  have hms60000 : ms ≤ 60000 := by rw [hms]; omega
  have hb60 : ms / 1000 ≤ 60 := by omega
  have hc1000 : ms % 1000 < 1000 := by omega
  refine ⟨m.toNat, ms / 1000, ms % 1000, hb60, hc1000, ?_, ?_, ?_, ?_⟩
  · show zfill 2 (Nat.repr m.toNat) ++ ":" ++
        zfill 6 (Nat.repr (ms / 1000) ++ "." ++ zfill 3 (Nat.repr (ms % 1000)))
      = _
    have hlen4 : ("." ++ zfill 3 (Nat.repr (ms % 1000))).length = 4 := by
      rw [String.length_append, zfill_length]
      have h3 := repr_length_le_three (ms % 1000) hc1000
      have hdot : (".").length = 1 := rfl
      omega
    have hreprb : (Nat.repr (ms / 1000)).length ≤ 2 :=
      repr_length_le_two _ (by omega)
    rw [String.append_assoc (Nat.repr (ms / 1000)),
      show (6 : Nat) = 2 + ("." ++ zfill 3 (Nat.repr (ms % 1000))).length by
        rw [hlen4],
      zfill_append]
    simp [String.append_assoc]
  · rw [zfill_length]
    have h3 := repr_length_le_two (ms / 1000) (by omega)
    omega
  · rw [zfill_length]
    have h3 := repr_length_le_three (ms % 1000) hc1000
    omega
  · rw [zfill_length]; omega

/-- C3: for every non-negative duration, `fmt_time` yields
minutes (zero-padded to at least 2 digits, unbounded above), a colon, a
2-character zero-padded seconds field, a dot, and exactly 3 decimal digits;
the spec's three round-trip examples hold, and a 100-minute duration shows
the unbounded minutes field. -/
theorem fmt_time_contract :
    (∀ t : ℚ, 0 ≤ t →
      ∃ mm ss mil : ℕ, ss ≤ 60 ∧ mil < 1000 ∧
        fmt_time t =
          zfill 2 (Nat.repr mm) ++ ":" ++ zfill 2 (Nat.repr ss) ++ "." ++
            zfill 3 (Nat.repr mil) ∧
        (zfill 2 (Nat.repr ss)).length = 2 ∧
        (zfill 3 (Nat.repr mil)).length = 3 ∧
        2 ≤ (zfill 2 (Nat.repr mm)).length) ∧
    fmt_time 0 = "00:00.000" ∧
    fmt_time (261/4) = "01:05.250" ∧
    fmt_time (3599999/1000) = "59:59.999" ∧
    fmt_time 6000 = "100:00.000" := by
  refine ⟨fun t ht => fmt_time_shape t ht, ?_, ?_, ?_, ?_⟩ <;>
    with_unfolding_all rfl

/-- C3 witness: the shape part applied at `t = 5/2`. -/
theorem fmt_time_contract_witness :
    ∃ mm ss mil : ℕ, ss ≤ 60 ∧ mil < 1000 ∧
      fmt_time (5/2) =
        zfill 2 (Nat.repr mm) ++ ":" ++ zfill 2 (Nat.repr ss) ++ "." ++
          zfill 3 (Nat.repr mil) ∧
      (zfill 2 (Nat.repr ss)).length = 2 ∧
      (zfill 3 (Nat.repr mil)).length = 3 ∧
      2 ≤ (zfill 2 (Nat.repr mm)).length :=
  fmt_time_contract.1 (5/2) (by norm_num)

/-- C4: `fmt_time` clamps its argument at zero — it only ever sees
`max 0 t` — so every non-positive duration formats to the floor value
`"00:00.000"`, never to a negative rendering. -/
theorem fmt_time_clamps :
    (∀ t : ℚ, fmt_time t = fmt_time (max 0 t)) ∧
    (∀ t : ℚ, t ≤ 0 → fmt_time t = "00:00.000") := by
  have hmax : ∀ t : ℚ, fmt_time t = fmt_time (max 0 t) := by
    intro t
    have h : max 0 (max 0 t) = max 0 t := by rw [← max_assoc, max_self]
    simp only [fmt_time, h]
  refine ⟨hmax, fun t ht => ?_⟩
  have h0 : max 0 t = 0 := max_eq_left ht
  rw [hmax t, h0]
  with_unfolding_all rfl

/-- C4 witness: a negative duration formats to the zero floor. -/
theorem fmt_time_clamps_witness : fmt_time (-5) = "00:00.000" :=
  fmt_time_clamps.2 (-5) (by norm_num)

end Stopwatch
